/-
Verification of the bucky parameter-generation engine
(src/bucky/model/parameters.py, with src/bucky/parameters.py as the
near-duplicate earlier module; the model/ module is the canonical one).

Embedding conventions:
* Parameter values are rationals (`ℚ`); the Python floats are modelled
  exactly, with float-special values (inf/nan) out of scope.
* The numeric backend's transcendental constants have no rational value,
  so `xp.log(2.0)` is abstracted as an explicit parameter `l2` wherever the
  source computes `r = xp.log(2.0) / D`, and `CI_to_std` (the only user of
  `xp.sqrt`) is embedded over `ℝ` with `Real.sqrt`.
* The sampling primitives (`truncnorm`, `approx_mPERT_sample`) are external
  black boxes per the spec; they are modelled as oracle functions bundled in
  a `Sampler` structure.  The randomness of the rejection loop in
  `generate_params` is modelled by indexing the per-iteration reroll
  outcomes by `ℕ`.
* Python's in-place array mutation (`*=`) and `copy.deepcopy` discipline is
  modelled explicitly with a heap of array cells for the frame property of
  `reroll_params`.
-/
import Mathlib

set_option maxHeartbeats 1000000

/-! ## Derivation functions (pure, from model/parameters.py lines 14-47) -/

/-- `calc_Te(Tg, Ts, n, f)`: latent period,
`((2nf/(n+1))*Tg - Ts) / (2nf/(n+1) - 1)`.  `n` is the integer stage count
`En`; division by a zero denominator is the (junk) Lean convention `x/0 = 0`
where the float code would produce inf/nan. -/
def calc_Te (Tg Ts : ℚ) (n : ℕ) (f : ℚ) : ℚ :=
  (2 * (n : ℚ) * f / ((n : ℚ) + 1) * Tg - Ts) / (2 * (n : ℚ) * f / ((n : ℚ) + 1) - 1)

/-- `calc_Ti(Te, Tg, n) = (Tg - Te) * 2n/(n+1)`: infectious period. -/
def calc_Ti (Te Tg : ℚ) (n : ℕ) : ℚ :=
  (Tg - Te) * 2 * (n : ℚ) / ((n : ℚ) + 1)

/-- `calc_Reff(m, n, Tg, Te, r)`: effective reproduction number,
`num = 2nr/(n+1) * (Tg-Te) * (1 + r*Te/m)^m`,
`den = 1 - (1 + 2r/(n+1)*(Tg-Te))^(-n)`.  `m` and `n` are the integer
shape/stage counts `Im`, `En`. -/
def calc_Reff (m n : ℕ) (Tg Te r : ℚ) : ℚ :=
  (2 * (n : ℚ) * r / ((n : ℚ) + 1) * (Tg - Te) * (1 + r * Te / (m : ℚ)) ^ m) /
    (1 - (1 + 2 * r / ((n : ℚ) + 1) * (Tg - Te)) ^ (-(n : ℤ)))

/-- `calc_beta(Te) = 1/Te`. -/
def calc_beta (Te : ℚ) : ℚ := 1 / Te

/-- `calc_gamma(Ti) = 1/Ti`. -/
def calc_gamma (Ti : ℚ) : ℚ := 1 / Ti

/-- `CI_to_std(CI)`: converts a 95% CI `(lower, upper)` to `(mean, std)`;
the code computes `std95 = sqrt(1/0.05)` and returns
`((upper+lower)/2, (upper-lower)/std95/2)`.  Embedded over `ℝ` because of
the square root. -/
noncomputable def CI_to_std (CI : ℝ × ℝ) : ℝ × ℝ :=
  ((CI.2 + CI.1) / 2, (CI.2 - CI.1) / Real.sqrt (1 / 0.05) / 2)

/-! ## Age-bin interpolation (model/parameters.py lines 145-151)

`age_interp(x_bins_new, x_bins, y)` takes the midpoint of each bin
(`numpy.mean(..., axis=1)` of the 2-column bin array) and evaluates
`numpy.interp(x_mean_new, x_mean, y)`.  `interp1d` is the embedding of
numpy's 1-d linear interpolation for strictly increasing sample points:
clamp to the end values outside the sample range, piecewise linear inside. -/

/-- Midpoints of a list of `[lower, upper]` age bins: `numpy.mean(bins, axis=1)`. -/
def binMeans (bins : List (ℚ × ℚ)) : List ℚ :=
  bins.map (fun b => (b.1 + b.2) / 2)

/-- One query point of `numpy.interp`: `pts` is the zipped list of (sample
point, sample value) pairs, assumed strictly increasing in the first
component.  Empty sample list is out of numpy's domain (it raises); the
model returns 0 there. -/
def interp1d (t : ℚ) : List (ℚ × ℚ) → ℚ
  | [] => 0
  | [(_, f1)] => f1
  | (x1, f1) :: (x2, f2) :: rest =>
      if t ≤ x1 then f1
      else if t ≤ x2 then f1 + (f2 - f1) * (t - x1) / (x2 - x1)
      else interp1d t ((x2, f2) :: rest)

/-- `age_interp(x_bins_new, x_bins, y) = numpy.interp(midpoints of
x_bins_new, midpoints of x_bins, y)`. -/
def age_interp (xBinsNew xBins : List (ℚ × ℚ)) (y : List ℚ) : List ℚ :=
  (binMeans xBinsNew).map (fun t => interp1d t ((binMeans xBins).zip y))

/-! ## Parameter specification data model (section 3 of the par-file layout)

A `base_params` entry is either a literal scalar/array (pass-through
constant) or a record with the optional fields inspected by
`reroll_params`: `mean`, `CI`, `gamma`, `values` + `age_bins`, `clip`.
Fields absent from a record are `none`; the source would raise `KeyError`
on an access to a field the branch requires but the record omits, which the
model renders with a default via `Option.getD` (every theorem below
hypothesises the fields its branch actually reads). -/

/-- A Python scalar-or-array parameter value. -/
inductive PVal where
  | s : ℚ → PVal
  | v : List ℚ → PVal
deriving DecidableEq

/-- A dict-valued specification record with the optional fields that
`reroll_params` dispatches on. -/
structure PRecord where
  mean : Option PVal := none
  CI : Option (ℚ × ℚ) := none
  gammaC : Option ℚ := none
  values : Option (List ℚ) := none
  age_bins : Option (List (ℚ × ℚ)) := none
  clip : Option (ℚ × ℚ) := none
deriving DecidableEq

/-- One entry of `base_params`: a spec record (Python dict) or a literal. -/
inductive PEntry where
  | dict : PRecord → PEntry
  | lit : PVal → PEntry
deriving DecidableEq

/-- A rerolled output value: scalar, array, or a passed-through entry (the
`else` branch deep-copies dict entries such as `consts` wholesale). -/
inductive RVal where
  | s : ℚ → RVal
  | v : List ℚ → RVal
  | ent : PEntry → RVal
deriving DecidableEq

/-- The black-box sampling primitives of `bucky.util.distributions`,
modelled as oracles (spec: distribution samplers are external
collaborators with documented input/output contracts):
* `pert mu g`   — `approx_mPERT_sample(xp.array([mu]), gamma=g)`;
* `ciDraw CI`   — `truncnorm(*CI_to_std(CI), a_min=1e-6)`, a function of
  the CI alone (location/scale are derived from the CI by `CI_to_std`);
* `jitter var`  — `truncnorm(loc=1.0, scale=var, a_min=1e-6)`, one scalar;
* `jitterArr var k` — `truncnorm(1.0, var, size=k, a_min=1e-6)`. -/
structure Sampler where
  pert : PVal → ℚ → PVal
  ciDraw : ℚ × ℚ → ℚ
  jitter : ℚ → ℚ
  jitterArr : ℚ → ℕ → List ℚ

/-- `numpy.clip(q, lo, hi) = min(max(q, lo), hi)` on one element. -/
def clip1 (c : ℚ × ℚ) (q : ℚ) : ℚ := min (max q c.1) c.2

/-- `xp.clip` on a rerolled value; a passed-through dict entry is not an
array (the source would raise there) and is left unchanged. -/
def RVal.clip (r : RVal) (c : ℚ × ℚ) : RVal :=
  match r with
  | .s q => .s (clip1 c q)
  | .v l => .v (l.map (clip1 c))
  | .ent e => .ent e

/-- `xp.atleast_1d`. -/
def atleast1d : PVal → List ℚ
  | .s q => [q]
  | .v l => l

/-- View a parameter value as a rerolled output value. -/
def RVal.ofPVal : PVal → RVal
  | .s q => .s q
  | .v l => .v l

/-- Apply the trailing `clip` step of `reroll_params` when the record
declares a `clip` range. -/
def applyClip (c : Option (ℚ × ℚ)) (r : RVal) : RVal :=
  match c with
  | some cr => r.clip cr
  | none => r

/-- One entry of `buckyParams.reroll_params` (model/parameters.py lines
103-143): dispatch on field presence in source order — `gamma`, then
`mean` (with/without `CI`, the CI path gated on `var` truthiness), then
`values` (jitter, then re-bin if the entry's bins differ from
`consts.age_bins`), else pass through — and finally clip. -/
def rerollEntry (smp : Sampler) (cbins : List (ℚ × ℚ)) (var : ℚ) (e : PEntry) : RVal :=
  match e with
  | .lit val => RVal.ofPVal val
  | .dict r =>
      let raw : RVal :=
        if r.gammaC.isSome then
          RVal.ofPVal (smp.pert (r.mean.getD (.s 0)) (r.gammaC.getD 0))
        else if r.mean.isSome then
          if r.CI.isSome then
            if var ≠ 0 then .s (smp.ciDraw (r.CI.getD (0, 0)))
            else RVal.ofPVal (r.mean.getD (.s 0))
          else
            .v ((atleast1d (r.mean.getD (.s 0))).map (· * smp.jitter var))
        else if r.values.isSome then
          let vals := r.values.getD []
          let jit := List.zipWith (· * ·) vals (smp.jitterArr var vals.length)
          if r.age_bins ≠ some cbins then
            .v (age_interp cbins (r.age_bins.getD []) jit)
          else .v jit
        else .ent (.dict r)
      applyClip r.clip raw

/-- The load-time normalization of one entry in `buckyParams.__init__`
(model/parameters.py lines 62-79): a dict entry holding `values` whose
`age_bins` differ from `consts.age_bins` has its `values` interpolated onto
the canonical bins and its `age_bins` overwritten with them.  (The
subsequent `xp.array` conversion of `values`/`mean` is a representation
change with no modelled content.) -/
def initEntry (cbins : List (ℚ × ℚ)) (e : PEntry) : PEntry :=
  match e with
  | .lit val => .lit val
  | .dict r =>
      if r.values.isSome then
        if r.age_bins ≠ some cbins then
          .dict { r with
                  values := some (age_interp cbins (r.age_bins.getD []) (r.values.getD [])),
                  age_bins := some cbins }
        else .dict r
      else .dict r

/-! ## Derived-parameter calculator and the rejection-sampling generator
(model/parameters.py lines 92-101 and 171-196)

`calc_derived_params` reads the scalar keys `Tg, Ts, D,
frac_trans_before_sym, ASYM_FRAC, H_TIME, I_TO_H_TIME` and the integer
constants `consts.En`, `consts.Im` from the rerolled set; the rerolled set
is modelled as a record of those keys (`RawParams`).  `l2` is the numeric
backend's value of `log(2.0)`. -/

/-- The keys of a rerolled parameter set that `calc_derived_params`
reads, plus the two integer constants of `consts` it uses. -/
structure RawParams where
  Tg : ℚ
  Ts : ℚ
  D : ℚ
  frac_trans_before_sym : ℚ
  ASYM_FRAC : ℚ
  H_TIME : ℚ
  I_TO_H_TIME : ℚ
  En : ℕ
  Im : ℕ
deriving DecidableEq

/-- A rerolled set extended in place with the derived keys. -/
structure DerivedParams extends RawParams where
  Te : ℚ
  Ti : ℚ
  R0 : ℚ
  SIGMA : ℚ
  GAMMA : ℚ
  BETA : ℚ
  SYM_FRAC : ℚ
  THETA : ℚ
  GAMMA_H : ℚ
deriving DecidableEq

/-- `buckyParams.calc_derived_params`: `Te = calc_Te(Tg, Ts, En,
frac_trans_before_sym)`, `Ti = calc_Ti(Te, Tg, En)`, `r = log(2)/D`,
`R0 = calc_Reff(Im, En, Tg, Te, r)`, `SIGMA = 1/Te`, `GAMMA = 1/Ti`,
`BETA = R0 * GAMMA`, `SYM_FRAC = 1 - ASYM_FRAC`, `THETA = 1/H_TIME`,
`GAMMA_H = 1/I_TO_H_TIME`. -/
def calc_derived_params (l2 : ℚ) (p : RawParams) : DerivedParams :=
  let Te := calc_Te p.Tg p.Ts p.En p.frac_trans_before_sym
  let Ti := calc_Ti Te p.Tg p.En
  let r := l2 / p.D
  let R0 := calc_Reff p.Im p.En p.Tg Te r
  let GAMMA := 1 / Ti
  { p with
      Te := Te
      Ti := Ti
      R0 := R0
      SIGMA := 1 / Te
      GAMMA := GAMMA
      BETA := R0 * GAMMA
      SYM_FRAC := 1 - p.ASYM_FRAC
      THETA := 1 / p.H_TIME
      GAMMA_H := 1 / p.I_TO_H_TIME }

/-- The validity predicate of the rejection loop in
`buckyParams.generate_params`: `Te > 1.0 and Tg > Te and Ti > 3.0`. -/
def validParams (p : DerivedParams) : Prop :=
  p.Te > 1 ∧ p.Tg > p.Te ∧ p.Ti > 3

instance (p : DerivedParams) : Decidable (validParams p) := by
  unfold validParams; infer_instance

/-- The loop's exit condition: `(valid) or var == 0.0`. -/
def acceptParams (var : ℚ) (p : DerivedParams) : Prop :=
  validParams p ∨ var = 0

instance (var : ℚ) (p : DerivedParams) : Decidable (acceptParams var p) := by
  unfold acceptParams; infer_instance

/-- The `if var is None: var = 0.0` normalization at the top of
`generate_params`. -/
def normVar (var? : Option ℚ) : ℚ := var?.getD 0

/-- `buckyParams.generate_params`: repeat (reroll, derive) until the exit
condition holds, returning the first accepted derived set.  The randomness
of the successive `reroll_params` calls is modelled by the stream
`rerolls : ℕ → RawParams` of per-iteration reroll outcomes; the loop is
total only on streams that eventually satisfy the exit condition, which is
the hypothesis `h` (the source loops forever otherwise — accepted
behavior per the spec). -/
def generate_params (l2 : ℚ) (rerolls : ℕ → RawParams) (var? : Option ℚ)
    (h : ∃ n, acceptParams (normVar var?) (calc_derived_params l2 (rerolls n))) :
    DerivedParams :=
  calc_derived_params l2 (rerolls (Nat.find h))

/-! ## Doubling-rate rescaler (model/parameters.py lines 153-169)

`rescale_doubling_rate(D, params, A_diag)` updates `R0` and `BETA` of an
existing parameter set in place and returns it.  `BETA = R0 * GAMMA` is a
scalar when `R0` and `GAMMA` are; dividing it elementwise by the array
`A_diag` broadcasts to an array, so `BETA` is modelled as a
scalar-or-array value.  All keys of the set not touched by the function
are gathered in the `extra` field (of arbitrary type). -/

/-- A numpy scalar-or-array value, for keys whose shape the source changes
dynamically by broadcasting. -/
inductive ArrVal where
  | scl : ℚ → ArrVal
  | arr : List ℚ → ArrVal
deriving DecidableEq

/-- Elementwise (broadcast) division of a value by an array. -/
def ArrVal.divArr (b : ArrVal) (A : List ℚ) : ArrVal :=
  match b with
  | .scl q => .arr (A.map (fun a => q / a))
  | .arr l => .arr (List.zipWith (· / ·) l A)

/-- A parameter set as seen by `rescale_doubling_rate`: the keys it reads
(`Tg`, `Te`, `GAMMA`, `consts.Im`, `consts.En`), the keys it writes (`R0`,
`BETA`), and every other key of the set (`extra`). -/
structure RescaleSet (α : Type) where
  Tg : ℚ
  Te : ℚ
  GAMMA : ℚ
  Im : ℕ
  En : ℕ
  R0 : ℚ
  BETA : ArrVal
  extra : α

/-- `buckyParams.rescale_doubling_rate(D, params, A_diag)`: `r = log(2)/D`
(`l2` is the backend's `log(2.0)`), `R0 = calc_Reff(consts.Im, consts.En,
Tg, Te, r)`, `BETA = R0 * GAMMA`, divided elementwise by `A_diag` when one
is supplied. -/
def rescale_doubling_rate {α : Type} (l2 D : ℚ) (params : RescaleSet α)
    (Adiag : Option (List ℚ)) : RescaleSet α :=
  let r := l2 / D
  let R0 := calc_Reff params.Im params.En params.Tg params.Te r
  let BETA0 : ArrVal := .scl (R0 * params.GAMMA)
  { params with
      R0 := R0
      BETA := match Adiag with
              | some A => BETA0.divArr A
              | none => BETA0 }

/-! ## Heap model of `reroll_params` for the no-mutation frame property

Python numpy arrays are mutable heap objects; `params[p] *= ...` writes in
place through the reference stored in `params[p]`, so the source's
deep-copy discipline (`copy.deepcopy`, `xp.array(...)` copies) is what
keeps `base_params` unmutated.  To make that claim meaningful the arrays
are modelled as cells of an explicit heap: `Heap.alloc` is a fresh copy,
`Heap.set` an in-place write, and the specification's `mean`/`values`
arrays are cell references held by the entries. -/

/-- A heap of array cells. -/
structure Heap where
  cells : List (List ℚ)
deriving DecidableEq

/-- Number of allocated cells. -/
def Heap.size (h : Heap) : ℕ := h.cells.length

/-- Read a cell (out-of-range reads, which the source never performs,
return the empty array). -/
def Heap.get (h : Heap) (r : ℕ) : List ℚ := h.cells.getD r []

/-- Allocate a fresh cell holding `v` and return its reference. -/
def Heap.alloc (h : Heap) (v : List ℚ) : Heap × ℕ :=
  (⟨h.cells ++ [v]⟩, h.cells.length)

/-- In-place write to an existing cell. -/
def Heap.set (h : Heap) (r : ℕ) (v : List ℚ) : Heap :=
  ⟨h.cells.set r v⟩

/-- A spec record whose `mean` and `values` arrays are heap references. -/
structure HRecord where
  mean : Option ℕ := none
  CI : Option (ℚ × ℚ) := none
  gammaC : Option ℚ := none
  values : Option ℕ := none
  age_bins : Option (List (ℚ × ℚ)) := none
  clip : Option (ℚ × ℚ) := none
deriving DecidableEq

/-- A `base_params` entry in the heap model: a dict record or a literal
array cell. -/
inductive HEntry where
  | dict : HRecord → HEntry
  | lit : ℕ → HEntry
deriving DecidableEq

/-- A rerolled output in the heap model: scalar, array reference, or a
passed-through record. -/
inductive HVal where
  | s : ℚ → HVal
  | ref : ℕ → HVal
  | ent : HRecord → HVal
deriving DecidableEq

/-- The black-box samplers in the heap model (array contents instead of
`PVal`); every sampler call returns a freshly built value. -/
structure HSampler where
  pert : List ℚ → ℚ → List ℚ
  ciDraw : ℚ × ℚ → ℚ
  jitter : ℚ → ℚ
  jitterArr : ℚ → ℕ → List ℚ

/-- One entry of `reroll_params` in the heap model, following the source's
copy/in-place operations exactly:
* `gamma` branch: `mu = copy.deepcopy(mean)` allocates a copy, the sampler
  result `xp.array(...)` is a fresh array;
* `mean`+`CI`, `var` truthy: fresh scalar draw; `var == 0`:
  `copy.deepcopy(mean)` allocates a copy;
* `mean` only: `xp.atleast_1d(copy.deepcopy(mean))` allocates a copy,
  `*=` writes the jittered content in place into that copy;
* `values`: `xp.array(values)` allocates a copy, `*=` writes in place,
  `numpy.interp` (when re-binning) returns a fresh array;
* pass-through: `copy.deepcopy` of the record;
* `clip`: `xp.clip` returns a fresh array. -/
def rerollBranchH (smp : HSampler) (cbins : List (ℚ × ℚ)) (var : ℚ)
    (h : Heap) (rc : HRecord) : Heap × HVal :=
  if rc.gammaC.isSome then
    let mu := h.get (rc.mean.getD 0)
    let a := h.alloc mu
    let b := a.1.alloc (smp.pert mu (rc.gammaC.getD 0))
    (b.1, .ref b.2)
  else if rc.mean.isSome then
    if rc.CI.isSome then
      if var ≠ 0 then (h, .s (smp.ciDraw (rc.CI.getD (0, 0))))
      else
        let a := h.alloc (h.get (rc.mean.getD 0))
        (a.1, .ref a.2)
    else
      let mu := h.get (rc.mean.getD 0)
      let a := h.alloc mu
      let h2 := a.1.set a.2 ((a.1.get a.2).map (· * smp.jitter var))
      (h2, .ref a.2)
  else if rc.values.isSome then
    let vs := h.get (rc.values.getD 0)
    let a := h.alloc vs
    let h2 := a.1.set a.2 (List.zipWith (· * ·) (a.1.get a.2) (smp.jitterArr var vs.length))
    if rc.age_bins ≠ some cbins then
      let b := h2.alloc (age_interp cbins (rc.age_bins.getD []) (h2.get a.2))
      (b.1, .ref b.2)
    else (h2, .ref a.2)
  else (h, .ent rc)

/-- The trailing `clip` step in the heap model: `xp.clip` allocates a
fresh output array. -/
def applyClipH (h : Heap) (c : Option (ℚ × ℚ)) (v : HVal) : Heap × HVal :=
  match c with
  | some cr =>
      match v with
      | .s q => (h, .s (clip1 cr q))
      | .ref r =>
          let b := h.alloc ((h.get r).map (clip1 cr))
          (b.1, .ref b.2)
      | .ent rc2 => (h, .ent rc2)
  | none => (h, v)

def rerollEntryH (smp : HSampler) (cbins : List (ℚ × ℚ)) (var : ℚ)
    (h : Heap) (e : HEntry) : Heap × HVal :=
  match e with
  | .lit r =>
      let a := h.alloc (h.get r)
      (a.1, .ref a.2)
  | .dict rc =>
      let step := rerollBranchH smp cbins var h rc
      applyClipH step.1 rc.clip step.2

/-- `reroll_params` over the whole specification in the heap model: fold
`rerollEntryH` over the entries, threading the heap and collecting the
new mapping's values. -/
def rerollParamsH (smp : HSampler) (cbins : List (ℚ × ℚ)) (var : ℚ) :
    Heap → List HEntry → Heap × List HVal
  | h, [] => (h, [])
  | h, e :: es =>
      let a := rerollEntryH smp cbins var h e
      let b := rerollParamsH smp cbins var a.1 es
      (b.1, a.2 :: b.2)

/-- Heap extension: the second heap has at least the cells of the first
and agrees with it on all of them.  `reroll_params` only extends the heap,
which is exactly the statement that the base specification's arrays are
never mutated. -/
def HeapExt (h h' : Heap) : Prop :=
  h.size ≤ h'.size ∧ ∀ r < h.size, h'.get r = h.get r

/-! ## Theorems -/

/-- C3: for every `(Tg, Ts, n, f)` with `n ≥ 1` and the `calc_Te`
denominator nonzero, `calc_Te` is deterministic (equal inputs give equal
outputs), and whenever `Tg > calc_Te(Tg, Ts, n, f)` it holds that
`calc_Ti(calc_Te(Tg, Ts, n, f), Tg, n) > 0`. -/
theorem calc_Te_deterministic_and_calc_Ti_pos (Tg Ts : ℚ) (n : ℕ) (f : ℚ)
    (hn : 1 ≤ n)
    (_hden : 2 * (n : ℚ) * f / ((n : ℚ) + 1) - 1 ≠ 0) :
    (∀ Tg' Ts' f', Tg' = Tg → Ts' = Ts → f' = f →
        calc_Te Tg' Ts' n f' = calc_Te Tg Ts n f) ∧
    (Tg > calc_Te Tg Ts n f → calc_Ti (calc_Te Tg Ts n f) Tg n > 0) := by
  constructor
  · intro Tg' Ts' f' h1 h2 h3
    rw [h1, h2, h3]
  · intro hgt
    have hn' : (1 : ℚ) ≤ (n : ℚ) := by exact_mod_cast hn
    have hsub : 0 < Tg - calc_Te Tg Ts n f := sub_pos.mpr hgt
    unfold calc_Ti
    apply div_pos
    · have h2 : (0 : ℚ) < (Tg - calc_Te Tg Ts n f) * 2 := by linarith
      have h3 : (0 : ℚ) < (n : ℚ) := by linarith
      exact mul_pos h2 h3
    · linarith

/-- C3 witness: the theorem applied at `Tg = 7, Ts = 9, n = 3, f = 1`,
where `calc_Te = 3 < 7 = Tg`, so the infectious period is positive. -/
theorem calc_Te_deterministic_and_calc_Ti_pos_witness :
    calc_Ti (calc_Te 7 9 3 1) 7 3 > 0 :=
  (calc_Te_deterministic_and_calc_Ti_pos 7 9 3 1 (by norm_num)
    (by norm_num)).2 (by norm_num [calc_Te])

/-- C6: `CI_to_std (lower, upper)` returns
`((lower+upper)/2, (upper-lower)/(2*sqrt(1/0.05)))`; at `(0.9, 1.1)` the
mean is `1` and the spread positive; and for `lower > upper` the spread is
negative. -/
theorem CI_to_std_spec (l u : ℝ) :
    CI_to_std (l, u) = ((l + u) / 2, (u - l) / (2 * Real.sqrt (1 / 0.05))) ∧
    (CI_to_std (0.9, 1.1)).1 = 1 ∧ 0 < (CI_to_std (0.9, 1.1)).2 ∧
    (l > u → (CI_to_std (l, u)).2 < 0) := by
  have hs : 0 < Real.sqrt (1 / 0.05) := Real.sqrt_pos.mpr (by norm_num)
  refine ⟨?_, ?_, ?_, ?_⟩
  · unfold CI_to_std
    refine Prod.ext ?_ ?_
    · show (u + l) / 2 = (l + u) / 2
      ring
    · show (u - l) / Real.sqrt (1 / 0.05) / 2 = (u - l) / (2 * Real.sqrt (1 / 0.05))
      rw [div_div, mul_comm]
  · show ((1.1 : ℝ) + 0.9) / 2 = 1
    norm_num
  · show (0 : ℝ) < ((1.1 : ℝ) - 0.9) / Real.sqrt (1 / 0.05) / 2
    positivity
  · intro hlu
    show (u - l) / Real.sqrt (1 / 0.05) / 2 < 0
    have h2 : u - l < 0 := by linarith
    exact div_neg_of_neg_of_pos (div_neg_of_neg_of_pos h2 hs) (by norm_num)

/-- C6 witness: the theorem applied at `lower = 2 > 1 = upper` gives a
negative spread. -/
theorem CI_to_std_spec_witness : (CI_to_std ((2 : ℝ), 1)).2 < 0 :=
  (CI_to_std_spec 2 1).2.2.2 (by norm_num)

/-- C4: an entry whose record contains a `gamma` field is rerolled from the
modified-PERT sampler at the entry's `mean` with concentration `gamma`
(then clipped when a `clip` range is declared); the quantification over all
other fields of the record shows this branch takes priority over the
mean-with-CI, mean-jitter, age-values, and pass-through branches. -/
theorem rerollEntry_gamma_priority (smp : Sampler) (cbins : List (ℚ × ℚ))
    (var : ℚ) (r : PRecord) (g : ℚ) (m : PVal)
    (hg : r.gammaC = some g) (hm : r.mean = some m) :
    rerollEntry smp cbins var (.dict r) =
      applyClip r.clip (RVal.ofPVal (smp.pert m g)) := by
  simp [rerollEntry, hg, hm]

/-- C4 witness: a record carrying `gamma` together with `mean`, `CI` and
`values` fields is sampled by the PERT branch. -/
theorem rerollEntry_gamma_priority_witness :
    rerollEntry ⟨fun p _ => p, fun ci => ci.1, fun _ => 1, fun _ n => List.replicate n 1⟩
      [] 1 (.dict ⟨some (.s 5), some (1, 2), some 4, some [9], none, none⟩) = RVal.s 5 :=
  (rerollEntry_gamma_priority _ [] 1 _ 4 (.s 5) rfl rfl).trans rfl

/-- C10: for an entry with `mean` and `CI` both present (and no `gamma`)
and `var ≠ 0`, the rerolled value does not depend on the `mean` field: the
draw is a function of the CI alone, so replacing `mean` leaves the output
unchanged. -/
theorem rerollEntry_CI_branch_ignores_mean (smp : Sampler) (cbins : List (ℚ × ℚ))
    (var : ℚ) (r : PRecord) (m m' : PVal) (ci : ℚ × ℚ)
    (hv : var ≠ 0) (hg : r.gammaC = none) (hm : r.mean = some m)
    (hci : r.CI = some ci) :
    rerollEntry smp cbins var (.dict { r with mean := some m' }) =
      rerollEntry smp cbins var (.dict r) ∧
    rerollEntry smp cbins var (.dict r) =
      applyClip r.clip (.s (smp.ciDraw ci)) := by
  constructor
  · simp [rerollEntry, hg, hm, hci, hv]
  · simp [rerollEntry, hg, hm, hci, hv]

/-- C10 witness: two records identical except for `mean` (7 vs 100) reroll
to the same value under the same sampler draws. -/
theorem rerollEntry_CI_branch_ignores_mean_witness :
    rerollEntry ⟨fun p _ => p, fun ci => ci.1, fun _ => 1, fun _ n => List.replicate n 1⟩
      [] 1 (.dict ⟨some (.s 100), some (3, 5), none, none, none, none⟩) =
    rerollEntry ⟨fun p _ => p, fun ci => ci.1, fun _ => 1, fun _ n => List.replicate n 1⟩
      [] 1 (.dict ⟨some (.s 7), some (3, 5), none, none, none, none⟩) :=
  (rerollEntry_CI_branch_ignores_mean _ [] 1
    ⟨some (.s 7), some (3, 5), none, none, none, none⟩ (.s 7) (.s 100) (3, 5)
    (by norm_num) rfl rfl rfl).1

/-- C1: with `var ≠ 0.0` the rejection loop of `generate_params` only
returns a derived set satisfying `Te > 1.0`, `Tg > Te` and `Ti > 3.0`, and
the returned set is one of the reroll-and-derive draws. -/
theorem generate_params_valid_of_var_ne_zero (l2 : ℚ) (rerolls : ℕ → RawParams)
    (v : ℚ) (hv : v ≠ 0)
    (h : ∃ n, acceptParams (normVar (some v)) (calc_derived_params l2 (rerolls n))) :
    validParams (generate_params l2 rerolls (some v) h) ∧
    ∃ n, generate_params l2 rerolls (some v) h = calc_derived_params l2 (rerolls n) := by
  have hs := Nat.find_spec h
  cases hs with
  | inl hval => exact ⟨hval, Nat.find h, rfl⟩
  | inr h0 => exact absurd (by simpa [normVar] using h0) hv

/-- C1 witness: a constant reroll stream with `Tg = 7, Ts = 9, En = 3,
frac_trans_before_sym = 1` derives `Te = 3, Ti = 6`, which is accepted at
once and is valid. -/
theorem generate_params_valid_of_var_ne_zero_witness :
    validParams (generate_params 1 (fun _ => ⟨7, 9, 1, 1, 0, 1, 1, 3, 2⟩) (some 1)
      ⟨0, Or.inl (by norm_num [validParams, calc_derived_params, calc_Te, calc_Ti])⟩) :=
  (generate_params_valid_of_var_ne_zero 1 (fun _ => ⟨7, 9, 1, 1, 0, 1, 1, 3, 2⟩) 1
    (by norm_num) _).1

/-- C2: with a variance of `0.0` (including `var=None`, normalized to
`0.0`), `generate_params` returns the result of the first
reroll-and-derive iteration without rejection, whether or not the validity
predicate holds for it. -/
theorem generate_params_var_zero_first_iteration (l2 : ℚ) (rerolls : ℕ → RawParams)
    (var? : Option ℚ) (hv : normVar var? = 0)
    (h : ∃ n, acceptParams (normVar var?) (calc_derived_params l2 (rerolls n))) :
    generate_params l2 rerolls var? h = calc_derived_params l2 (rerolls 0) := by
  unfold generate_params
  have h0 : Nat.find h = 0 := (Nat.find_eq_zero h).mpr (Or.inr hv)
  rw [h0]

/-- C2 witness: with `var=None` and a first draw violating the validity
predicate (`Te = 1`, not `> 1`), the invalid first draw is returned
anyway. -/
theorem generate_params_var_zero_first_iteration_witness :
    generate_params 1 (fun _ => ⟨7, 10, 1, 1, 0, 1, 1, 3, 2⟩) none ⟨0, Or.inr rfl⟩ =
      calc_derived_params 1 ⟨7, 10, 1, 1, 0, 1, 1, 3, 2⟩ ∧
    ¬ validParams (calc_derived_params 1 ⟨7, 10, 1, 1, 0, 1, 1, 3, 2⟩) :=
  ⟨generate_params_var_zero_first_iteration 1 (fun _ => ⟨7, 10, 1, 1, 0, 1, 1, 3, 2⟩)
      none rfl ⟨0, Or.inr rfl⟩,
    by norm_num [validParams, calc_derived_params, calc_Te, calc_Ti]⟩

/-- C8: `rescale_doubling_rate(D, params, A_diag)` sets
`R0 = calc_Reff(consts.Im, consts.En, Tg, Te, log(2)/D)` and
`BETA = R0 * GAMMA` (divided elementwise by `A_diag` when one is
supplied), and every other key of the set keeps its prior value. -/
theorem rescale_doubling_rate_spec {α : Type} (l2 D : ℚ) (p : RescaleSet α)
    (Adiag : Option (List ℚ)) :
    (rescale_doubling_rate l2 D p Adiag).R0 =
        calc_Reff p.Im p.En p.Tg p.Te (l2 / D) ∧
    (rescale_doubling_rate l2 D p Adiag).BETA =
        (match Adiag with
         | some A => (ArrVal.scl (calc_Reff p.Im p.En p.Tg p.Te (l2 / D) * p.GAMMA)).divArr A
         | none => ArrVal.scl (calc_Reff p.Im p.En p.Tg p.Te (l2 / D) * p.GAMMA)) ∧
    (rescale_doubling_rate l2 D p Adiag).Tg = p.Tg ∧
    (rescale_doubling_rate l2 D p Adiag).Te = p.Te ∧
    (rescale_doubling_rate l2 D p Adiag).GAMMA = p.GAMMA ∧
    (rescale_doubling_rate l2 D p Adiag).Im = p.Im ∧
    (rescale_doubling_rate l2 D p Adiag).En = p.En ∧
    (rescale_doubling_rate l2 D p Adiag).extra = p.extra := by
  refine ⟨rfl, ?_, rfl, rfl, rfl, rfl, rfl, rfl⟩
  cases Adiag <;> rfl

/-- C9: after the load-time normalization of `buckyParams.__init__`, a
dict entry holding `values` has `age_bins` equal to the canonical
`consts.age_bins` and its `values` already interpolated onto them, so a
subsequent `reroll_params` never takes the re-binning branch: it applies
the multiplicative jitter directly to the rebinned array (and the clip). -/
theorem initEntry_rebins_and_reroll_skips_interp (smp : Sampler)
    (cbins : List (ℚ × ℚ)) (var : ℚ) (r : PRecord) (vs : List ℚ)
    (bs : List (ℚ × ℚ)) (hg : r.gammaC = none) (hm : r.mean = none)
    (hv : r.values = some vs) (hb : r.age_bins = some bs) :
    initEntry cbins (.dict r) =
      .dict { r with
              values := some (if bs = cbins then vs else age_interp cbins bs vs),
              age_bins := some cbins } ∧
    rerollEntry smp cbins var (initEntry cbins (.dict r)) =
      applyClip r.clip
        (.v (List.zipWith (· * ·)
          (if bs = cbins then vs else age_interp cbins bs vs)
          (smp.jitterArr var
            (if bs = cbins then vs else age_interp cbins bs vs).length))) := by
  have hinit : initEntry cbins (.dict r) =
      .dict { r with
              values := some (if bs = cbins then vs else age_interp cbins bs vs),
              age_bins := some cbins } := by
    unfold initEntry
    by_cases hbc : bs = cbins
    · subst hbc
      cases r
      simp_all
    · simp [hv, hb, hbc, Option.getD]
  refine ⟨hinit, ?_⟩
  rw [hinit]
  simp [rerollEntry, hg, hm, hv]

/-- C9 witness: an entry already on the canonical bins is jittered in
place with no interpolation. -/
theorem initEntry_rebins_and_reroll_skips_interp_witness :
    rerollEntry ⟨fun p _ => p, fun ci => ci.1, fun _ => 1, fun _ n => List.replicate n 1⟩
      [(0, 2)] 1
      (initEntry [(0, 2)] (.dict ⟨none, none, none, some [5], some [(0, 2)], none⟩)) =
      RVal.v [5] :=
  ((initEntry_rebins_and_reroll_skips_interp _ [(0, 2)] 1
      ⟨none, none, none, some [5], some [(0, 2)], none⟩ [5] [(0, 2)]
      rfl rfl rfl rfl).2).trans (by norm_num [applyClip])

/-- At a sample point of a strictly increasing sample list, `interp1d`
returns that point's sample value exactly. -/
theorem interp1d_mem (pts : List (ℚ × ℚ))
    (hpw : List.Pairwise (· < ·) (pts.map Prod.fst)) :
    ∀ q ∈ pts, interp1d q.1 pts = q.2 := by
  induction pts with
  | nil => intro q hq; simp at hq
  | cons p1 tail ih =>
    intro q hq
    cases tail with
    | nil =>
      obtain ⟨x, f⟩ := p1
      rcases List.mem_singleton.mp hq with rfl
      rfl
    | cons p2 rest =>
      obtain ⟨x1, f1⟩ := p1
      obtain ⟨x2, f2⟩ := p2
      have hpw' := List.pairwise_cons.mp hpw
      rcases List.mem_cons.mp hq with rfl | hq'
      · simp [interp1d]
      · have h1 : x1 < q.1 := hpw'.1 q.1 (List.mem_map_of_mem Prod.fst hq')
        rcases List.mem_cons.mp hq' with rfl | hq'' -- q = (x2, f2) or q ∈ rest
        · have h1' : x1 < x2 := h1
          have hne : x2 - x1 ≠ 0 := sub_ne_zero.mpr (ne_of_gt h1')
          show interp1d x2 ((x1, f1) :: (x2, f2) :: rest) = f2
          rw [show interp1d x2 ((x1, f1) :: (x2, f2) :: rest) =
              if x2 ≤ x1 then f1
              else if x2 ≤ x2 then f1 + (f2 - f1) * (x2 - x1) / (x2 - x1)
              else interp1d x2 ((x2, f2) :: rest) from rfl]
          rw [if_neg (not_le.mpr h1'), if_pos le_rfl, mul_div_assoc, div_self hne]
          ring
        · have hpw2 := List.pairwise_cons.mp hpw'.2
          have h2 : x2 < q.1 := hpw2.1 q.1 (List.mem_map_of_mem Prod.fst hq'')
          rw [show interp1d q.1 ((x1, f1) :: (x2, f2) :: rest) =
              if q.1 ≤ x1 then f1
              else if q.1 ≤ x2 then f1 + (f2 - f1) * (q.1 - x1) / (x2 - x1)
              else interp1d q.1 ((x2, f2) :: rest) from rfl]
          rw [if_neg (not_le.mpr h1), if_neg (not_le.mpr h2)]
          exact ih hpw'.2 q (List.mem_cons_of_mem _ hq'')

/-- `numpy.interp` of a value list against itself as sample points is the
identity when the sample points are strictly increasing. -/
theorem map_interp1d_self (xs ys : List ℚ) (hlen : xs.length = ys.length)
    (hpw : List.Pairwise (· < ·) xs) :
    xs.map (fun t => interp1d t (xs.zip ys)) = ys := by
  have hfst : (xs.zip ys).map Prod.fst = xs :=
    List.map_fst_zip xs ys (le_of_eq hlen)
  apply List.ext_getElem
  · simpa using hlen
  · intro i hi1 hi2
    have hix : i < xs.length := by simpa using hi1
    have hiz : i < (xs.zip ys).length := by
      simp [List.length_zip]
      omega
    have hmem : (xs[i], ys[i]) ∈ xs.zip ys := by
      have : (xs.zip ys)[i] = (xs[i], ys[i]) := List.getElem_zip
      rw [← this]
      exact List.getElem_mem hiz
    have := interp1d_mem (xs.zip ys) (by rwa [hfst]) (xs[i], ys[i]) hmem
    simpa using this

/-- C5: interpolating a value array onto the very bins it is defined over
is the identity, provided the bin midpoints are strictly increasing and
the array length matches the bin count. -/
theorem age_interp_same_bins_identity (bins : List (ℚ × ℚ)) (y : List ℚ)
    (hmono : List.Chain' (· < ·) (binMeans bins))
    (hlen : y.length = bins.length) :
    age_interp bins bins y = y := by
  unfold age_interp
  apply map_interp1d_self
  · simp [binMeans]
    omega
  · exact List.chain'_iff_pairwise.mp hmono

/-- C5 witness: two bins with midpoints `10 < 60` and values `[3, 8]`
interpolate onto themselves unchanged. -/
theorem age_interp_same_bins_identity_witness :
    age_interp [(0, 20), (20, 100)] [(0, 20), (20, 100)] [3, 8] = [3, 8] :=
  age_interp_same_bins_identity [(0, 20), (20, 100)] [3, 8]
    (by norm_num [binMeans]) (by norm_num)

/-! ### Heap lemmas for the frame property of `reroll_params` -/

theorem heapExt_refl (h : Heap) : HeapExt h h :=
  ⟨le_refl _, fun _ _ => rfl⟩

theorem heapExt_trans {h1 h2 h3 : Heap} (a : HeapExt h1 h2) (b : HeapExt h2 h3) :
    HeapExt h1 h3 :=
  ⟨le_trans a.1 b.1, fun r hr => ((b.2 r (lt_of_lt_of_le hr a.1)).trans (a.2 r hr))⟩

theorem heapExt_alloc (h : Heap) (v : List ℚ) : HeapExt h (h.alloc v).1 := by
  constructor
  · show h.size ≤ (h.alloc v).1.size
    simp [Heap.size, Heap.alloc]
  · intro r hr
    show (h.alloc v).1.get r = h.get r
    unfold Heap.get Heap.alloc
    rw [List.getD_eq_getElem?_getD, List.getD_eq_getElem?_getD]
    rw [List.getElem?_append_left hr]

theorem heapExt_alloc_set (h : Heap) (v w : List ℚ) :
    HeapExt h (((h.alloc v).1).set (h.alloc v).2 w) := by
  constructor
  · show h.size ≤ (((h.alloc v).1).set (h.alloc v).2 w).size
    simp [Heap.size, Heap.alloc, Heap.set]
  · intro r hr
    show (((h.alloc v).1).set (h.alloc v).2 w).get r = h.get r
    have hr' : r < h.cells.length := hr
    unfold Heap.get Heap.set Heap.alloc
    rw [List.getD_eq_getElem?_getD, List.getD_eq_getElem?_getD]
    rw [List.getElem?_set_ne (by omega)]
    show (h.cells ++ [v])[r]?.getD [] = h.cells[r]?.getD []
    rw [List.getElem?_append_left hr']

theorem size_alloc (h : Heap) (v : List ℚ) : (h.alloc v).1.size = h.size + 1 := by
  simp [Heap.size, Heap.alloc]

theorem snd_alloc (h : Heap) (v : List ℚ) : (h.alloc v).2 = h.size := rfl

theorem heapExt_branch (smp : HSampler) (cbins : List (ℚ × ℚ)) (var : ℚ)
    (h : Heap) (rc : HRecord) :
    HeapExt h (rerollBranchH smp cbins var h rc).1 := by
  unfold rerollBranchH
  split_ifs with h1 h2 h3 h4 h5 h6
  · exact heapExt_trans (heapExt_alloc _ _) (heapExt_alloc _ _)
  · exact heapExt_refl _
  · exact heapExt_alloc _ _
  · exact heapExt_alloc_set _ _ _
  · exact heapExt_trans (heapExt_alloc_set _ _ _) (heapExt_alloc _ _)
  · exact heapExt_alloc_set _ _ _
  · exact heapExt_refl _

theorem heapExt_clip (h : Heap) (c : Option (ℚ × ℚ)) (v : HVal) :
    HeapExt h (applyClipH h c v).1 := by
  unfold applyClipH
  cases c with
  | none => exact heapExt_refl _
  | some cr =>
      cases v with
      | s q => exact heapExt_refl _
      | ref r => exact heapExt_alloc _ _
      | ent rc2 => exact heapExt_refl _

theorem heapExt_rerollEntryH (smp : HSampler) (cbins : List (ℚ × ℚ)) (var : ℚ)
    (h : Heap) (e : HEntry) :
    HeapExt h (rerollEntryH smp cbins var h e).1 := by
  cases e with
  | lit r => exact heapExt_alloc _ _
  | dict rc =>
      exact heapExt_trans (heapExt_branch smp cbins var h rc) (heapExt_clip _ _ _)

theorem heapExt_rerollParamsH (smp : HSampler) (cbins : List (ℚ × ℚ)) (var : ℚ)
    (es : List HEntry) : ∀ h : Heap, HeapExt h (rerollParamsH smp cbins var h es).1 := by
  induction es with
  | nil => intro h; exact heapExt_refl _
  | cons e es ih =>
      intro h
      exact heapExt_trans (heapExt_rerollEntryH smp cbins var h e)
        (ih (rerollEntryH smp cbins var h e).1)

/-- C7: `reroll_params` never mutates the base specification: for every
specification (any list of entries over any heap of spec arrays) and every
variance, every array cell of the original heap — in particular every
`mean` or `values` array referenced by a spec record, and every literal
array entry — holds exactly the same content after the call; the `CI`,
`clip`, `gamma` and `age_bins` fields are immutable record data, unchanged
by construction.  All in-place writes of the source land on
freshly-deep-copied cells. -/
theorem reroll_params_no_mutation (smp : HSampler) (cbins : List (ℚ × ℚ))
    (var : ℚ) (h : Heap) (es : List HEntry) (r : ℕ) (hr : r < h.size) :
    (rerollParamsH smp cbins var h es).1.get r = h.get r :=
  (heapExt_rerollParamsH smp cbins var es h).2 r hr

/-- C7 witness: a two-entry specification (a jittered `mean` record and a
jittered, re-binned `values` record sharing an array cell) leaves the
original cells untouched. -/
theorem reroll_params_no_mutation_witness :
    (rerollParamsH ⟨fun p _ => p, fun ci => ci.1, fun _ => 1, fun _ n => List.replicate n 1⟩
        [(0, 2)] 1 ⟨[[3, 4], [5]]⟩
        [.dict ⟨some 0, none, none, none, none, some (0, 1)⟩,
         .dict ⟨none, none, none, some 1, some [(0, 4)], none⟩,
         .lit 0]).1.get 0 = Heap.get ⟨[[3, 4], [5]]⟩ 0 :=
  reroll_params_no_mutation _ [(0, 2)] 1 ⟨[[3, 4], [5]]⟩ _ 0 (by decide)
